import Mathlib

/-!
Verification of the goskkserv SKK dictionary server.

The development shallowly embeds the Go sources: the dictionary index
(`dict/dictionary.go` and the candidate/entry code), the magic-comment
encoding detection (the `magicCommentRegex` and `wrapEncDecoder`), the
loader entry points (`OpenDictionary` / `loadDictionary` and the launcher
`_main`), the wire-encoding parser (`ParseEncoding`), the accept-loop
error handling of `Server.Listen`, and the per-connection dispatch of
`Server.serve`.

Buffers and strings are modelled as `List Char`.  The byte-level
delimiter searches of the source (`strings.IndexByte` for `' '`, `'\n'`,
`';'`, `'/'`) coincide with character-level searches because those
delimiters are ASCII and UTF-8 continuation bytes never equal an ASCII
byte.  The EUC-JP / Shift-JIS byte decoders live in the external
golang.org/x/text module; the embedding works on already-decoded
character content, and the decoder selection only determines success or
failure of the load (which is exactly what the claims about it state).
-/

/-- Character strings as lists of characters. -/
abbrev Str := List Char

/-- Candidate record: conversion text plus an annotation string
(field `ann` models the source's annotation field; empty = absent). -/
structure Candidate where
  text : Str
  ann : Str
deriving DecidableEq, Repr

/-- String form of a candidate, from `candidate.String`: the text alone
when the annotation is empty, otherwise `text + "; " + annotation`. -/
def Candidate.str (c : Candidate) : Str :=
  if c.ann = [] then c.text else c.text ++ (';' :: ' ' :: c.ann)

/-- Entry for one key, from the `entry` struct: the ordered candidate
sequence plus the duplicate-suppression set of texts (modelled as the
list of texts, appended in lockstep with the candidates). -/
structure Entry where
  candidates : List Candidate
  candSet : List Str
deriving DecidableEq, Repr

/-- A fresh entry, from `newEntry`. -/
def Entry.new : Entry := ⟨[], []⟩

/-- One candidate insertion, from `entry.add`: if the text is already in
the set the new candidate (and its annotation) is discarded, otherwise
the candidate is appended and the text recorded. -/
def Entry.add (e : Entry) (t a : Str) : Entry × Bool :=
  if t ∈ e.candSet then (e, false)
  else (⟨e.candidates ++ [⟨t, a⟩], e.candSet ++ [t]⟩, true)

/-- The dictionary table, from the `table map[string]*entry` field. -/
def Table := Str → Option Entry

/-- The empty table (a freshly made map). -/
def emptyTable : Table := fun _ => none

/-- Map update `table[key] = e`. -/
def Table.update (tb : Table) (k : Str) (e : Entry) : Table :=
  fun q => if q = k then some e else tb q

/-- The entry stored at a key, or a fresh one, modelling
`entry := d.table[key]; if entry == nil { entry = newEntry() }`. -/
def Table.entryAt (tb : Table) (k : Str) : Entry :=
  (tb k).getD Entry.new

/-- Lookup, from `Dictionary.Search`: the entry's ordered candidates, or
the empty sequence when the key is absent. -/
def Search (tb : Table) (k : Str) : List Candidate :=
  match tb k with
  | none => []
  | some e => e.candidates

/-- Index of the first occurrence of a character, from
`strings.IndexByte` (`none` models the -1 result). -/
def idxOf (c : Char) : Str → Option Nat
  | [] => none
  | d :: t => if d = c then some 0 else (idxOf c t).map (· + 1)

/-- Split one candidate segment on its first `';'`, from the
`strings.IndexByte(candidate, ';')` branch of the loader: the text is
the part before it, the annotation the part after it (no `';'` gives an
empty annotation). -/
def parseCand (seg : Str) : Str × Str :=
  match idxOf ';' seg with
  | none => (seg, [])
  | some i => (seg.take i, seg.drop (i + 1))

/-- The loader's inner candidate loop: skip empty segments, split each
remaining segment into text and annotation and insert it. -/
def Entry.addSegs (e : Entry) (segs : List Str) : Entry :=
  segs.foldl
    (fun e seg =>
      if seg = [] then e
      else (e.add (parseCand seg).1 (parseCand seg).2).1)
    e

/-- Process one complete dictionary line (including its trailing
newline), from the body of the loader's line loop: comment lines and
lines without a space are skipped; otherwise the key is the part before
the first space, the candidate segments come from splitting
`line[i+1 : len(line)-1]` on `'/'`, and they are inserted into the
key's entry. -/
def processLine (tb : Table) (line : Str) : Table :=
  match line with
  | [] => tb
  | c :: _ =>
    if c = ';' then tb
    else
      match idxOf ' ' line with
      | none => tb
      | some i =>
        let key := line.take i
        let segs := ((line.drop (i + 1)).dropLast).splitOn '/'
        tb.update key ((tb.entryAt key).addSegs segs)

/-- Split a character stream into its newline-terminated lines, each
line keeping its trailing newline; a final segment not terminated by a
newline is dropped.  This models the loader's `ReadString('\n')` loop,
whose final read returns the unterminated remainder together with
`io.EOF` and is discarded by the `break`. -/
def splitLinesAux : Str → Str → List Str
  | [], _ => []
  | c :: rest, acc =>
    if c = '\n' then (acc ++ ['\n']) :: splitLinesAux rest []
    else splitLinesAux rest (acc ++ [c])

/-- The complete (newline-terminated) lines of a stream. -/
def completeLines (s : Str) : List Str := splitLinesAux s []

/-- The loader's line loop over the decoded remainder of a file. -/
def processLines (tb : Table) (s : Str) : Table :=
  (completeLines s).foldl processLine tb

/-- One `ReadString('\n')` call: the first line including its newline
and the remainder, or `none` when no newline is present (in the source
this is the data-plus-`io.EOF` result). -/
def readLine (s : Str) : Option (Str × Str) :=
  match idxOf '\n' s with
  | none => none
  | some i => some (s.take (i + 1), s.drop (i + 1))

/-! ### The magic-comment regular expression

`magicCommentRegex` is `-\*-.*[ \t]coding:[ \t]*([^ \t;]+?)[ \t;].*-\*-`.
The matcher below implements Go's leftmost-first semantics for this
fixed pattern by explicit backtracking: start positions are tried left
to right, `.*` and `[ \t]*` greedily (longest first), the capture
`[^ \t;]+?` lazily (shortest first).  `.` matches any character except
newline; the bracket classes are transcribed literally. -/

/-- Character class of `.` (any character but newline). -/
def isDot (c : Char) : Bool := c ≠ '\n'

/-- Character class `[ \t]`. -/
def isSpTab (c : Char) : Bool := c = ' ' ∨ c = '\t'

/-- Character class `[^ \t;]`. -/
def isCapChar (c : Char) : Bool := ¬(c = ' ' ∨ c = '\t' ∨ c = ';')

/-- Character class `[ \t;]`. -/
def isSpTabSemi (c : Char) : Bool := c = ' ' ∨ c = '\t' ∨ c = ';'

/-- Consume a literal, returning the remainder on success. -/
def dropLit : Str → Str → Option Str
  | [], s => some s
  | _ :: _, [] => none
  | l :: ls, c :: cs => if c = l then dropLit ls cs else none

/-- Suffixes obtained by consuming 0, 1, 2, … characters of a class,
shortest consumption first (the lazy backtracking order). -/
def splitsLazy (p : Char → Bool) : Str → List Str
  | [] => [[]]
  | c :: cs => (c :: cs) :: (if p c then splitsLazy p cs else [])

/-- The same suffixes, longest consumption first (the greedy order). -/
def splitsGreedy (p : Char → Bool) (s : Str) : List Str :=
  (splitsLazy p s).reverse

/-- Candidate captures for a lazy nonempty class repetition: the pairs
(consumed text, remainder), shortest consumed text first. -/
def capLazy (p : Char → Bool) : Str → List (Str × Str)
  | [] => []
  | c :: cs =>
    if p c then ([c], cs) :: (capLazy p cs).map (fun x => (c :: x.1, x.2))
    else []

/-- The literal `-*-`. -/
def star3 : Str := ['-', '*', '-']

/-- The literal `coding:`. -/
def codingLit : Str := ['c', 'o', 'd', 'i', 'n', 'g', ':']

/-- Attempt the whole pattern at one start position, returning the
captured encoding name on success. -/
def matchAt (s : Str) : Option Str :=
  match dropLit star3 s with
  | none => none
  | some s1 =>
    (splitsGreedy isDot s1).findSome? fun s2 =>
      match s2 with
      | [] => none
      | c :: s3 =>
        if isSpTab c then
          match dropLit codingLit s3 with
          | none => none
          | some s4 =>
            (splitsGreedy isSpTab s4).findSome? fun s5 =>
              (capLazy isCapChar s5).findSome? fun cap =>
                match cap.2 with
                | [] => none
                | d :: s7 =>
                  if isSpTabSemi d then
                    (splitsGreedy isDot s7).findSome? fun s8 =>
                      match dropLit star3 s8 with
                      | some _ => some cap.1
                      | none => none
                  else none
        else none

/-- `FindStringSubmatch` for the magic-comment pattern: the capture of
the leftmost-first match, or `none` when the line does not match. -/
def magicFind : Str → Option Str
  | [] => none
  | c :: t =>
    match matchAt (c :: t) with
    | some cap => some cap
    | none => magicFind t

/-- The resolved encoding name of a first line, from the loader:
`enc := "euc-jp"` overridden by the regex capture when the magic
comment matches. -/
def encodingOf (first : Str) : Str :=
  match magicFind first with
  | some n => n
  | none => "euc-jp".toList

/-- The file-side decoders selected by `wrapEncDecoder`. -/
inductive FileDecoder
  | eucJP
  | shiftJIS
  | identity
deriving DecidableEq, Repr

/-- Decoder selection, from `wrapEncDecoder`: `euc-jp` and
`euc-jis-2004` select EUC-JP, `sjis` selects Shift-JIS, `utf-8` the
identity, and any other name is an unsupported-encoding error. -/
def wrapEncDecoder (enc : Str) : Except Str FileDecoder :=
  if enc = "euc-jp".toList ∨ enc = "euc-jis-2004".toList then .ok .eucJP
  else if enc = "sjis".toList then .ok .shiftJIS
  else if enc = "utf-8".toList then .ok .identity
  else .error ("unsupported encoding: ".toList ++ enc)

/-- Load one dictionary file into a table, from `Dictionary.Add` /
`loadDictionary`: read the first physical line (failing when the file
has no newline), resolve the encoding from it, select the decoder
(failing on an unsupported name), then run the line loop on the
remainder. -/
def dictAdd (tb : Table) (content : Str) : Except Str Table :=
  match readLine content with
  | none => .error ("failed to read dictionary".toList)
  | some fr =>
    match wrapEncDecoder (encodingOf fr.1) with
    | .error e => .error e
    | .ok _ => .ok (processLines tb fr.2)

/-- Successive loads into one table, modelling repeated `Add` calls or
the loop of `OpenDictionary`, stopping at the first failure. -/
def loadAllFrom : List Str → Table → Except Str Table
  | [], tb => .ok tb
  | f :: fs, tb =>
    match dictAdd tb f with
    | .error e => .error e
    | .ok tb2 => loadAllFrom fs tb2

/-- Loading a list of files into a fresh table. -/
def loadAll (files : List Str) : Except Str Table :=
  loadAllFrom files emptyTable

/-- Constructor input for `OpenDictionary`: each file is either its
content or `none` for an open failure. -/
abbrev FileArg := Option Str

/-- The loop body of `OpenDictionary` over the remaining files. -/
def openDictAux : List FileArg → Table → Except Str Table
  | [], tb => .ok tb
  | none :: _, _ => .error ("failed to open dictionary file".toList)
  | some f :: fs, tb =>
    match dictAdd tb f with
    | .error e => .error e
    | .ok tb2 => openDictAux fs tb2

/-- `OpenDictionary`: build a fresh table, loading the files in order;
on the first open or load failure return the error and **no** table
(the source returns `nil, err`, dropping the partially built table). -/
def OpenDictionary (files : List FileArg) : Except Str Table :=
  openDictAux files emptyTable

/-- The table the launcher ends up serving, from `_main` and
`NewServer`: with no positional arguments the dictionary stays nil and
`NewServer` substitutes an empty one; with arguments, an
`OpenDictionary` error is logged and the nil dictionary is likewise
replaced by an empty one. -/
def launcherTable (files : List FileArg) : Table :=
  match files with
  | [] => emptyTable
  | _ :: _ =>
    match OpenDictionary files with
    | .ok tb => tb
    | .error _ => emptyTable

/-- The wire-encoding parser, from `ParseEncoding` (and its launcher
twin `ParseServerEncoding`): exactly `utf-8`, `euc-jp` and `sjis` are
accepted, anything else is an invalid-encoding error. -/
def ParseEncoding (s : Str) : Except Str Str :=
  if s = "utf-8".toList ∨ s = "euc-jp".toList ∨ s = "sjis".toList then .ok s
  else .error ("invalid encoding".toList)

/-! ### Accept-loop error handling (`Server.Listen`) -/

/-- Outcome of one `Accept` error in the accept loop.  `continueAccept`
is what the spec describes for temporary errors; it is included so the
claim can be stated, but the source never produces it. -/
inductive AcceptStep
  | exitLoop
  | continueAccept (newDelay : Nat)
  | returnError (slept : Option Nat)
deriving DecidableEq, Repr

/-- The next backoff delay in nanoseconds, from the
`tempDelay` update in `Listen`: 5 ms on the first consecutive failure,
doubling afterwards, capped at 1 s. -/
def nextTempDelay (d : Nat) : Nat :=
  let d2 := if d = 0 then 5000000 else d * 2
  if d2 > 1000000000 then 1000000000 else d2

/-- The accept loop's handling of one `Accept` error, transcribed from
`Listen`: if the shutdown context is done, break out of the loop;
otherwise, if the error is temporary, update the delay and sleep; in
every non-shutdown case the loop then falls through to `return err`
(the source has no `continue` after the sleep). -/
def acceptErrorStep (ctxDone temporary : Bool) (tempDelay : Nat) : AcceptStep :=
  if ctxDone then .exitLoop
  else if temporary then .returnError (some (nextTempDelay tempDelay))
  else .returnError none

/-! ### Per-connection dispatch (`Server.serve`) -/

/-- The action one iteration of the serve loop takes on a received
buffer.  `crash` marks the out-of-bounds `cmd[0]` access a zero-byte
read would cause. -/
inductive ServeAction
  | exitLoop
  | reply (r : Str)
  | continueNoReply
  | crash
deriving DecidableEq, Repr

/-- One dispatch of the serve loop on the received buffer `cmd`,
transcribed from the `switch cmd[0]` of `Server.serve`.  `localAddr` is
the text of `conn.LocalAddr()`. -/
def serveStep (tb : Table) (localAddr : Str) (cmd : Str) : ServeAction :=
  match cmd with
  | [] => .crash
  | c0 :: _ =>
    if c0 = '0' then .exitLoop
    else if c0 = '1' then
      let i :=
        match idxOf ' ' cmd with
        | some i => i
        | none =>
          match idxOf '\n' cmd with
          | some i => i
          | none => cmd.length
      let key := (cmd.take i).drop 1
      let cands := Search tb key
      if 0 < cands.length then
        .reply ('1' :: (((cands.map (fun c => '/' :: c.str)).flatten) ++ ['/', '\n']))
      else
        .reply ('4' :: cmd.drop 1)
    else if c0 = '2' then .reply ("goskkserv-1.0".toList)
    else if c0 = '3' then .reply localAddr
    else if c0 = '4' then .reply ('1' :: "//\n".toList)
    else .continueNoReply

/-! ### Spec-side definitions

These state the spec's words, to be compared with the definitions
transcribed from the source. -/

/-- Modelled from the spec: one step of prefix-deduplication — keep the
candidate only when no earlier candidate has the same text. -/
def dedupStep (acc : List Candidate) (c : Candidate) : List Candidate :=
  if c.text ∈ acc.map Candidate.text then acc else acc ++ [c]

/-- Modelled from the spec: the prefix-dedup of a candidate sequence —
pairwise-distinct texts, first-seen order, first annotation kept. -/
def prefixDedup (cs : List Candidate) : List Candidate :=
  cs.foldl dedupStep []

/-- The parsed key of a dictionary line, or `none` when the line is a
comment or has no space. -/
def lineKeyOf (line : Str) : Option Str :=
  match line with
  | [] => none
  | c :: _ =>
    if c = ';' then none
    else (idxOf ' ' line).map (fun i => line.take i)

/-- The raw candidate segments of a dictionary line (empty when the
line is skipped). -/
def lineSegs (line : Str) : List Str :=
  match line with
  | [] => []
  | c :: _ =>
    if c = ';' then []
    else
      match idxOf ' ' line with
      | none => []
      | some i => ((line.drop (i + 1)).dropLast).splitOn '/'

/-- The parsed candidates of a list of segments: empty segments are
skipped, the rest split into text and annotation. -/
def parsedOf (segs : List Str) : List Candidate :=
  segs.filterMap
    (fun seg =>
      if seg = [] then none
      else some ⟨(parseCand seg).1, (parseCand seg).2⟩)

/-- The candidates a single line contributes to the key `k`. -/
def lineCandsFor (k : Str) (line : Str) : List Candidate :=
  if lineKeyOf line = some k then parsedOf (lineSegs line) else []

/-- Modelled from the spec: the per-file candidate sequence for key
`k` — the candidates of the file's entry lines with that key, in file
order (the first physical line is the encoding line, not an entry). -/
def fileCandsFor (k : Str) (content : Str) : List Candidate :=
  match readLine content with
  | none => []
  | some fr => ((completeLines fr.2).map (lineCandsFor k)).flatten

/-- Modelled from the spec: `KEY` of a lookup payload — the bytes up to
the first space, else the first LF, else the end of the buffer. -/
def specKey (rest : Str) : Str :=
  match idxOf ' ' rest with
  | some j => rest.take j
  | none =>
    match idxOf '\n' rest with
    | some j => rest.take j
    | none => rest

/-- Modelled from the spec: the found reply — the found marker, each
candidate's string form preceded by a slash, a trailing slash, then
LF. -/
def specFound (cands : List Candidate) : Str :=
  '1' :: (((cands.map (fun c => '/' :: c.str)).flatten) ++ ['/', '\n'])


/-! ### Helper predicates -/

/-- Boolean success test for `Except`. -/
def isOkE {ε α : Type} : Except ε α → Bool
  | .ok _ => true
  | .error _ => false

/-! ### Claim C1 — accept-loop backoff -/

/-- C1: in the accept loop, a temporary `Accept` error with shutdown
not signalled makes the loop sleep the backoff delay (5 ms first,
doubling, capped at 1 s) and then **return the error** — the source has
no `continue` after the sleep, so the loop never continues accepting
after any error.  The claim's backoff schedule itself is computed as
stated, but the continuation it claims does not happen. -/
theorem c1_temporary_accept_error_returns :
    acceptErrorStep false true 0 = .returnError (some 5000000)
    ∧ (∀ d : Nat, acceptErrorStep false true d
        = .returnError (some (nextTempDelay d)))
    ∧ nextTempDelay 0 = 5000000
    ∧ nextTempDelay 5000000 = 10000000
    ∧ nextTempDelay 10000000 = 20000000
    ∧ nextTempDelay 640000000 = 1000000000
    ∧ nextTempDelay 1000000000 = 1000000000
    ∧ (∀ tmp : Bool, ∀ d : Nat, acceptErrorStep true tmp d = .exitLoop)
    ∧ (∀ d : Nat, acceptErrorStep false false d = .returnError none) :=
  ⟨rfl, fun _ => rfl, by norm_num [nextTempDelay], by norm_num [nextTempDelay],
   by norm_num [nextTempDelay], by norm_num [nextTempDelay],
   by norm_num [nextTempDelay], fun _ _ => rfl, fun _ => rfl⟩

/-! ### Claim C5 — wire-encoding parser -/

/-- C5: `ParseEncoding` accepts exactly the three selectors `utf-8`,
`euc-jp` and `sjis`; the spelling `eucjp` — advertised by the binary's
own `-enc` usage text — is rejected with the invalid-encoding error, as
are `euc-jis-2004` and every other string. -/
theorem c5_parse_encoding_strict_trio :
    ParseEncoding ("eucjp".toList) = .error ("invalid encoding".toList)
    ∧ ParseEncoding ("utf-8".toList) = .ok ("utf-8".toList)
    ∧ ParseEncoding ("euc-jp".toList) = .ok ("euc-jp".toList)
    ∧ ParseEncoding ("sjis".toList) = .ok ("sjis".toList)
    ∧ ParseEncoding ("euc-jis-2004".toList) = .error ("invalid encoding".toList)
    ∧ (∀ s : Str, ParseEncoding s =
        if s = "utf-8".toList ∨ s = "euc-jp".toList ∨ s = "sjis".toList
        then .ok s else .error ("invalid encoding".toList)) :=
  ⟨rfl, rfl, rfl, rfl, rfl, fun _ => rfl⟩

/-! ### Claim C6 — magic-comment encoding detection -/

/-- C6: the loader matches the first physical line against the
magic-comment regular expression; a captured name selects the file
decoder through `wrapEncDecoder` (`euc-jp` and `euc-jis-2004` map to
EUC-JP, `sjis` to Shift-JIS, `utf-8` to the identity, anything else is
an unsupported-encoding error), and with no magic comment the encoding
defaults to `euc-jp`. -/
theorem c6_magic_comment_selects_decoder :
    (∀ first name : Str, magicFind first = some name →
        wrapEncDecoder (encodingOf first) = wrapEncDecoder name)
    ∧ (∀ first : Str, magicFind first = none →
        wrapEncDecoder (encodingOf first) = .ok .eucJP)
    ∧ wrapEncDecoder ("euc-jp".toList) = .ok .eucJP
    ∧ wrapEncDecoder ("euc-jis-2004".toList) = .ok .eucJP
    ∧ wrapEncDecoder ("sjis".toList) = .ok .shiftJIS
    ∧ wrapEncDecoder ("utf-8".toList) = .ok .identity
    ∧ (∀ name : Str, name ≠ "euc-jp".toList → name ≠ "euc-jis-2004".toList →
        name ≠ "sjis".toList → name ≠ "utf-8".toList →
        wrapEncDecoder name = .error ("unsupported encoding: ".toList ++ name))
    ∧ magicFind (";; -*- mode: fundamental; coding: utf-8 -*-\n".toList)
        = some ("utf-8".toList)
    ∧ magicFind ("-*- coding: euc-jis-2004 -*-\n".toList)
        = some ("euc-jis-2004".toList)
    ∧ magicFind ("kome kome/\n".toList) = none := by
  refine ⟨?_, ?_, rfl, ?_, ?_, ?_, ?_, ?_, ?_, ?_⟩
  · intro first name h
    unfold encodingOf
    rw [h]
  · intro first h
    unfold encodingOf
    rw [h]
    rfl
  · rfl
  · rfl
  · rfl
  · intro name h1 h2 h3 h4
    unfold wrapEncDecoder
    rw [if_neg (not_or.mpr ⟨h1, h2⟩), if_neg h3, if_neg h4]
  · decide
  · decide
  · decide

/-- Witness for C6: concrete first lines exercising the capture branch
and the no-magic-comment default. -/
theorem c6_witness :
    wrapEncDecoder (encodingOf ("-*- coding: sjis -*-\n".toList))
        = wrapEncDecoder ("sjis".toList)
    ∧ wrapEncDecoder (encodingOf ("kome kome/\n".toList)) = .ok .eucJP :=
  ⟨c6_magic_comment_selects_decoder.1 _ _ (by decide),
   c6_magic_comment_selects_decoder.2.1 _ (by decide)⟩

/-! ### Line-splitting lemmas for C9 and C10 -/

/-- A character that does not occur is never found. -/
theorem idxOf_eq_none_of_not_mem {c : Char} {s : Str} (h : c ∉ s) :
    idxOf c s = none := by
  induction s with
  | nil => rfl
  | cons d t ih =>
    have hd : d ≠ c := fun hh => h (hh ▸ List.mem_cons_self d t)
    have ht : c ∉ t := fun hh => h (List.mem_cons_of_mem d hh)
    simp [idxOf, hd, ih ht]

/-- Finding a character is stable under appending on the right. -/
theorem idxOf_append_of_some {c : Char} {s : Str} {i : Nat}
    (h : idxOf c s = some i) (p : Str) : idxOf c (s ++ p) = some i := by
  induction s generalizing i with
  | nil => cases h
  | cons d t ih =>
    by_cases hd : d = c
    · simp [idxOf, hd] at h ⊢
      exact h
    · simp [idxOf, hd] at h ⊢
      obtain ⟨j, hj, hij⟩ := h
      exact ⟨j, ih hj, hij⟩

/-- A found index is within the string. -/
theorem idxOf_lt_length {c : Char} {s : Str} {i : Nat}
    (h : idxOf c s = some i) : i < s.length := by
  induction s generalizing i with
  | nil => cases h
  | cons d t ih =>
    by_cases hd : d = c
    · simp [idxOf, hd] at h
      simp [List.length_cons]
      omega
    · simp [idxOf, hd] at h
      obtain ⟨j, hj, hij⟩ := h
      have := ih hj
      simp [List.length_cons]
      omega

/-- A right-appended tail without a newline does not change
`ReadString('\n')` except for riding along in the remainder. -/
theorem readLine_append {p : Str} (hp : '\n' ∉ p) (s : Str) :
    readLine (s ++ p) = (readLine s).map (fun x => (x.1, x.2 ++ p)) := by
  unfold readLine
  cases h : idxOf '\n' s with
  | none =>
    have h1 : idxOf '\n' (s ++ p) = none := by
      have hs : '\n' ∉ s := by
        intro hm
        obtain ⟨i, hi⟩ : ∃ i, idxOf '\n' s = some i := by
          clear h
          induction s with
          | nil => cases hm
          | cons d t ih =>
            by_cases hd : d = '\n'
            · exact ⟨0, by simp [idxOf, hd]⟩
            · have : '\n' ∈ t := by
                rcases List.mem_cons.1 hm with h' | h'
                · exact absurd h'.symm hd
                · exact h'
              obtain ⟨j, hj⟩ := ih this
              exact ⟨j + 1, by simp [idxOf, hd, hj]⟩
        rw [h] at hi
        cases hi
      exact idxOf_eq_none_of_not_mem (by
        intro hm
        rcases List.mem_append.1 hm with hm | hm
        · exact hs hm
        · exact hp hm)
    rw [h1]
    rfl
  | some i =>
    have h1 : idxOf '\n' (s ++ p) = some i := idxOf_append_of_some h p
    have h2 : i < s.length := idxOf_lt_length h
    have ht : (s ++ p).take (i + 1) = s.take (i + 1) := by
      rw [List.take_append_eq_append_take, show i + 1 - s.length = 0 from by omega,
        List.take_zero, List.append_nil]
    have hd : (s ++ p).drop (i + 1) = s.drop (i + 1) ++ p := by
      rw [List.drop_append_eq_append_drop, show i + 1 - s.length = 0 from by omega,
        List.drop_zero]
    simp [h1, h, ht, hd]

/-- A stream without a newline yields no complete lines, whatever has
been accumulated. -/
theorem splitLinesAux_eq_nil {p : Str} (hp : '\n' ∉ p) (acc : Str) :
    splitLinesAux p acc = [] := by
  induction p generalizing acc with
  | nil => rfl
  | cons c t ih =>
    have hc : c ≠ '\n' := fun hh => hp (hh ▸ List.mem_cons_self c t)
    have ht : '\n' ∉ t := fun hh => hp (List.mem_cons_of_mem c hh)
    simp [splitLinesAux, hc, ih ht]

/-- Appending a newline-free tail changes no complete line. -/
theorem splitLinesAux_append {p : Str} (hp : '\n' ∉ p) (s acc : Str) :
    splitLinesAux (s ++ p) acc = splitLinesAux s acc := by
  induction s generalizing acc with
  | nil => simp [splitLinesAux, splitLinesAux_eq_nil hp]
  | cons c t ih =>
    by_cases hc : c = '\n'
    · simp [splitLinesAux, hc, ih]
    · simp [splitLinesAux, hc, ih]

/-- The complete lines of a stream ignore an unterminated tail. -/
theorem completeLines_append {p : Str} (hp : '\n' ∉ p) (s : Str) :
    completeLines (s ++ p) = completeLines s :=
  splitLinesAux_append hp s []

/-! ### Claim C10 — unterminated final line -/

/-- C10: a final line not terminated by a newline is discarded by `Add`
at end of file without being parsed — appending any newline-free tail to
a file leaves the load result unchanged, and in particular a load that
succeeded still succeeds with the same table. -/
theorem c10_unterminated_final_line_discarded (content extra : Str) (tb : Table)
    (hx : '\n' ∉ extra) :
    dictAdd tb (content ++ extra) = dictAdd tb content
    ∧ (∀ tb2 : Table, dictAdd tb content = .ok tb2 →
        dictAdd tb (content ++ extra) = .ok tb2) := by
  have key : dictAdd tb (content ++ extra) = dictAdd tb content := by
    unfold dictAdd
    rw [readLine_append hx content]
    cases h : readLine content with
    | none => rfl
    | some fr =>
      show (match wrapEncDecoder (encodingOf fr.1) with
        | Except.error e => Except.error e
        | Except.ok _ => Except.ok (processLines tb (fr.2 ++ extra)))
        = (match wrapEncDecoder (encodingOf fr.1) with
        | Except.error e => Except.error e
        | Except.ok _ => Except.ok (processLines tb fr.2))
      unfold processLines
      rw [completeLines_append hx]
  exact ⟨key, fun tb2 h2 => key.trans h2⟩

/-- Witness for C10: a two-line file followed by a broken final line
loads to the same table as the file alone. -/
theorem c10_witness :
    dictAdd emptyTable ("x\nk a/\n".toList ++ "k2 b/".toList)
      = dictAdd emptyTable ("x\nk a/\n".toList) :=
  (c10_unterminated_final_line_discarded ("x\nk a/\n".toList) ("k2 b/".toList)
    emptyTable (by decide)).1

/-! ### Claim C9 — the first line never contributes entries -/

/-- The first `ReadString('\n')` of a one-line prefix returns exactly
that line and the remainder. -/
theorem idxOf_newline_sandwich {f0 : Str} (h0 : '\n' ∉ f0) (rest : Str) :
    idxOf '\n' (f0 ++ '\n' :: rest) = some f0.length := by
  induction f0 with
  | nil => simp [idxOf]
  | cons c t ih =>
    have hc : c ≠ '\n' := fun hh => h0 (hh ▸ List.mem_cons_self c t)
    have ht : '\n' ∉ t := fun hh => h0 (List.mem_cons_of_mem c hh)
    simp [idxOf, hc, ih ht]

/-- `readLine` on a newline-terminated first line plus remainder. -/
theorem readLine_sandwich {f0 : Str} (h0 : '\n' ∉ f0) (rest : Str) :
    readLine (f0 ++ '\n' :: rest) = some (f0 ++ ['\n'], rest) := by
  unfold readLine
  rw [idxOf_newline_sandwich h0 rest]
  have ht : (f0 ++ '\n' :: rest).take (f0.length + 1) = f0 ++ ['\n'] := by
    rw [List.take_append_eq_append_take, List.take_of_length_le (by omega),
      show f0.length + 1 - f0.length = 1 from by omega]
    rfl
  have hd : (f0 ++ '\n' :: rest).drop (f0.length + 1) = rest := by
    rw [List.drop_append_eq_append_drop,
      show f0.length + 1 - f0.length = 1 from by omega,
      List.drop_of_length_le (by omega)]
    rfl
  show some ((f0 ++ '\n' :: rest).take (f0.length + 1),
      (f0 ++ '\n' :: rest).drop (f0.length + 1)) = some (f0 ++ ['\n'], rest)
  rw [ht, hd]

/-- C9: the first physical line is consumed solely for encoding
detection — when the load succeeds, the resulting table is built from
the remainder alone, so even an entry-shaped first line contributes no
key and no candidates. -/
theorem c9_first_line_never_contributes (f0 rest : Str) (tb : Table)
    (h0 : '\n' ∉ f0)
    (henc : isOkE (wrapEncDecoder (encodingOf (f0 ++ ['\n']))) = true) :
    dictAdd tb (f0 ++ '\n' :: rest) = .ok (processLines tb rest) := by
  unfold dictAdd
  rw [readLine_sandwich h0 rest]
  show (match wrapEncDecoder (encodingOf (f0 ++ ['\n'])) with
    | Except.error e => Except.error e
    | Except.ok _ => Except.ok (processLines tb rest)) = .ok (processLines tb rest)
  cases hw : wrapEncDecoder (encodingOf (f0 ++ ['\n'])) with
  | error e => rw [hw] at henc; simp [isOkE] at henc
  | ok d => rfl

/-- Witness for C9: an entry-shaped first line with no magic comment
(default encoding) loads successfully and adds nothing — its key is
absent afterwards. -/
theorem c9_witness :
    dictAdd emptyTable ("k a/".toList ++ '\n' :: [])
        = .ok (processLines emptyTable [])
    ∧ Search (processLines emptyTable []) ("k".toList) = [] :=
  ⟨c9_first_line_never_contributes ("k a/".toList) [] emptyTable
    (by decide) (by decide), rfl⟩

/-! ### Claim C3 — lookup replies -/

/-- C3: a request starting with `'1'` is answered, when the key (bytes
from offset 1 to the first space, else the first LF, else the end) has
candidates, with the found marker, each candidate's string form behind
a slash, a trailing slash and a LF; with no candidates, with `'4'`
followed by the received bytes from offset 1 to the end, with no extra
LF. -/
theorem c3_lookup_reply (tb : Table) (addr rest : Str) :
    serveStep tb addr ('1' :: rest) =
      if 0 < (Search tb (specKey rest)).length
      then .reply (specFound (Search tb (specKey rest)))
      else .reply ('4' :: rest) := by
  cases hsp : idxOf ' ' rest with
  | some j =>
    simp [serveStep, specKey, specFound, idxOf, hsp]
  | none =>
    cases hnl : idxOf '\n' rest with
    | some j =>
      simp [serveStep, specKey, specFound, idxOf, hsp, hnl]
    | none =>
      simp [serveStep, specKey, specFound, idxOf, hsp, hnl, List.take_length]

/-! ### Claim C7 — reply codes and unknown commands -/

/-- Counterexample to C7: a host query on a connection whose local
address text begins with `'9'` (any local IP in 9.0.0.0/8, here
`9.1.2.3:1178`) is answered with that text verbatim — a processed
request whose reply's first byte is `'9'`. -/
theorem c7_counterexample :
    serveStep emptyTable ("9.1.2.3:1178".toList) (['3'])
        = .reply ("9.1.2.3:1178".toList)
    ∧ ("9.1.2.3:1178".toList).head? = some '9' :=
  ⟨rfl, rfl⟩

/-- C7 (amended): every reply the dispatch writes either is the
host-query reply — exactly the text of the connection's local address,
whatever its first byte — or has a first byte that is neither the
error code `'0'` nor the full code `'9'`; and a command byte outside
`'0'`..`'4'` produces no reply at all — the loop logs and continues
reading. -/
theorem c7_no_error_or_full_reply_except_host (tb : Table) (addr cmd : Str) :
    (∀ r : Str, serveStep tb addr cmd = .reply r →
        r = addr ∨ ∀ c : Char, r.head? = some c → c ≠ '0' ∧ c ≠ '9')
    ∧ (∀ c0 : Char, ∀ t : Str, cmd = c0 :: t →
        c0 ≠ '0' → c0 ≠ '1' → c0 ≠ '2' → c0 ≠ '3' → c0 ≠ '4' →
        serveStep tb addr cmd = .continueNoReply) := by
  constructor
  · intro r hr
    cases cmd with
    | nil => simp [serveStep] at hr
    | cons c0 t =>
      simp only [serveStep] at hr
      repeat' split at hr
      all_goals first
        | (injection hr with h; subst h;
           first
             | exact Or.inl rfl
             | (refine Or.inr fun c hc => ?_; simp at hc; subst hc; decide))
        | cases hr
  · intro c0 t hcmd h0 h1 h2 h3 h4
    subst hcmd
    simp [serveStep, h0, h1, h2, h3, h4]

/-- Witness for C7 (amended): an unknown command byte on the
counterexample's connection gets no reply. -/
theorem c7_amended_witness :
    serveStep emptyTable ("9.1.2.3:1178".toList) (['z']) = .continueNoReply :=
  (c7_no_error_or_full_reply_except_host emptyTable
    ("9.1.2.3:1178".toList) ['z']).2 'z' [] rfl
    (by decide) (by decide) (by decide) (by decide) (by decide)

/-! ### Claim C4 — failed later load discards earlier files -/

/-- Counterexample to C4: the first file alone loads the candidate `a`
under key `k`, but when a second file fails to open, `OpenDictionary`
returns an error with **no** table and the launcher serves an empty
dictionary — the earlier file's entries are not available to `Search`. -/
theorem c4_counterexample :
    OpenDictionary [some ("x\nk a/\n".toList), none]
        = .error ("failed to open dictionary file".toList)
    ∧ Search (launcherTable [some ("x\nk a/\n".toList), none]) ("k".toList) = []
    ∧ Search
        (match dictAdd emptyTable ("x\nk a/\n".toList) with
          | .ok tb => tb
          | .error _ => emptyTable)
        ("k".toList) = [⟨"a".toList, []⟩] :=
  ⟨rfl, rfl, rfl⟩

/-- C4 (amended): when any file in the list fails to load,
`OpenDictionary` discards the partially built table and returns only
the error; the launcher logs it and keeps serving, but over an empty
dictionary — `Search` finds nothing at all, not the earlier files'
entries. -/
theorem c4_failed_load_serves_empty (files : List FileArg) (k e : Str)
    (h : OpenDictionary files = .error e) :
    Search (launcherTable files) k = [] := by
  cases files with
  | nil =>
    cases h
  | cons f fs =>
    unfold launcherTable
    rw [h]
    rfl

/-- Witness for C4 (amended): the concrete failing load from the
counterexample serves the empty dictionary. -/
theorem c4_amended_witness :
    Search (launcherTable [some ("x\nk a/\n".toList), none]) ("q".toList) = [] :=
  c4_failed_load_serves_empty [some ("x\nk a/\n".toList), none] ("q".toList)
    ("failed to open dictionary file".toList) rfl

/-! ### Claim C2 — the dedup law -/

/-- The entry invariant: the duplicate-suppression set holds exactly
the texts of the stored candidates. -/
def entryInv (e : Entry) : Prop :=
  e.candSet = e.candidates.map Candidate.text

/-- The table invariant: every stored entry satisfies `entryInv`. -/
def tableInv (tb : Table) : Prop :=
  ∀ k e, tb k = some e → entryInv e

/-- A fresh entry satisfies the invariant. -/
theorem entryInv_new : entryInv Entry.new := rfl

/-- Looking an entry up under the table invariant keeps the invariant. -/
theorem entryInv_entryAt {tb : Table} (h : tableInv tb) (k : Str) :
    entryInv (tb.entryAt k) := by
  unfold Table.entryAt
  cases hk : tb k with
  | none => exact entryInv_new
  | some e => exact h k e hk

/-- `Search` agrees with the default-entry view of the table. -/
theorem search_eq_entryAt (tb : Table) (k : Str) :
    Search tb k = (tb.entryAt k).candidates := by
  unfold Search Table.entryAt
  cases tb k <;> rfl

/-- Lookup after updating the same key. -/
theorem search_update_self (tb : Table) (k : Str) (e : Entry) :
    Search (tb.update k e) k = e.candidates := by
  simp [Search, Table.update]

/-- Lookup after updating a different key. -/
theorem search_update_ne (tb : Table) {k q : Str} (e : Entry) (h : q ≠ k) :
    Search (tb.update k e) q = Search tb q := by
  simp [Search, Table.update, h]

/-- Updating with an invariant entry keeps the table invariant. -/
theorem tableInv_update {tb : Table} (h : tableInv tb) {k : Str} {e : Entry}
    (he : entryInv e) : tableInv (tb.update k e) := by
  intro q e2 hq
  unfold Table.update at hq
  by_cases hqk : q = k
  · rw [if_pos hqk] at hq
    injection hq with hh
    exact hh ▸ he
  · rw [if_neg hqk] at hq
    exact h q e2 hq

/-- One `entry.add` behaves as one dedup step on the candidate list. -/
theorem add_eq_dedupStep {e : Entry} (c : Candidate) (h : entryInv e) :
    (e.add c.text c.ann).1.candidates = dedupStep e.candidates c
    ∧ entryInv (e.add c.text c.ann).1 := by
  unfold Entry.add dedupStep
  rw [h]
  by_cases hm : c.text ∈ e.candidates.map Candidate.text
  · rw [if_pos hm, if_pos hm]
    exact ⟨rfl, h⟩
  · rw [if_neg hm, if_neg hm]
    refine ⟨rfl, ?_⟩
    show e.candidates.map Candidate.text ++ [c.text]
        = (e.candidates ++ [Candidate.mk c.text c.ann]).map Candidate.text
    rw [List.map_append]
    rfl

/-- Folding `entry.add` over parsed candidates folds dedup steps over
the candidate list. -/
theorem foldAdd_eq_foldDedup (cs : List Candidate) (e : Entry) (h : entryInv e) :
    (cs.foldl (fun e c => (e.add c.text c.ann).1) e).candidates
        = cs.foldl dedupStep e.candidates
    ∧ entryInv (cs.foldl (fun e c => (e.add c.text c.ann).1) e) := by
  induction cs generalizing e with
  | nil => exact ⟨rfl, h⟩
  | cons c cs ih =>
    obtain ⟨h1, h2⟩ := add_eq_dedupStep c h
    obtain ⟨h3, h4⟩ := ih _ h2
    refine ⟨?_, h4⟩
    rw [List.foldl_cons, List.foldl_cons, h3, h1]

/-- `addSegs` inserts exactly the parsed candidates of the segments. -/
theorem addSegs_eq_foldParsed (segs : List Str) (e : Entry) :
    e.addSegs segs
      = (parsedOf segs).foldl (fun e c => (e.add c.text c.ann).1) e := by
  induction segs generalizing e with
  | nil => rfl
  | cons s ss ih =>
    simp only [Entry.addSegs, List.foldl_cons, parsedOf, List.filterMap_cons] at *
    by_cases hs : s = []
    · simp only [hs, if_pos rfl, reduceIte]
      exact ih e
    · simp only [hs, reduceIte]
      exact ih _

/-- The effect of one complete line on one key's search result: the
line folds its parsed candidates for that key into the entry through
dedup steps, and leaves every other key untouched. -/
theorem processLine_search (tb : Table) (line k : Str) (h : tableInv tb) :
    Search (processLine tb line) k
        = (lineCandsFor k line).foldl dedupStep (Search tb k)
    ∧ tableInv (processLine tb line) := by
  cases line with
  | nil => exact ⟨rfl, h⟩
  | cons c0 t =>
    by_cases hc : c0 = ';'
    · refine ⟨?_, ?_⟩
      · simp [processLine, lineCandsFor, lineKeyOf, hc]
      · simpa [processLine, hc] using h
    · cases hi : idxOf ' ' (c0 :: t) with
      | none =>
        refine ⟨?_, ?_⟩
        · simp [processLine, lineCandsFor, lineKeyOf, hc, hi]
        · simpa [processLine, hc, hi] using h
      | some i =>
        have hkey := search_eq_entryAt tb ((c0 :: t).take i)
        have hinv := entryInv_entryAt h ((c0 :: t).take i)
        have hseg := addSegs_eq_foldParsed
          ((((c0 :: t).drop (i + 1)).dropLast).splitOn '/')
          (tb.entryAt ((c0 :: t).take i))
        obtain ⟨hf1, hf2⟩ := foldAdd_eq_foldDedup
          (parsedOf ((((c0 :: t).drop (i + 1)).dropLast).splitOn '/')) _ hinv
        have hpl : processLine tb (c0 :: t)
            = tb.update ((c0 :: t).take i)
                ((tb.entryAt ((c0 :: t).take i)).addSegs
                  ((((c0 :: t).drop (i + 1)).dropLast).splitOn '/')) := by
          simp [processLine, hc, hi]
        have hko : lineKeyOf (c0 :: t) = some ((c0 :: t).take i) := by
          simp only [lineKeyOf, hi]
          rw [if_neg hc]
          rfl
        refine ⟨?_, ?_⟩
        · rw [hpl]
          by_cases hk : k = (c0 :: t).take i
          · rw [hk, search_update_self, hseg, hf1, ← hkey]
            have hlc : lineCandsFor ((c0 :: t).take i) (c0 :: t)
                = parsedOf ((((c0 :: t).drop (i + 1)).dropLast).splitOn '/') := by
              unfold lineCandsFor
              rw [hko, if_pos rfl]
              simp [lineSegs, hc, hi]
            rw [hlc]
          · rw [search_update_ne _ _ hk]
            have hnot : ¬(lineKeyOf (c0 :: t) = some k) := by
              rw [hko]
              intro hh
              exact hk (Option.some.inj hh).symm
            have hlc : lineCandsFor k (c0 :: t) = [] := by
              unfold lineCandsFor
              rw [if_neg hnot]
            rw [hlc]
            rfl
        · rw [hpl]
          refine tableInv_update h ?_
          rw [hseg]
          exact hf2

/-- The line loop folds the per-line contributions for every key. -/
theorem foldLines_search (lines : List Str) (tb : Table) (k : Str)
    (h : tableInv tb) :
    Search (lines.foldl processLine tb) k
        = ((lines.map (lineCandsFor k)).flatten).foldl dedupStep (Search tb k)
    ∧ tableInv (lines.foldl processLine tb) := by
  induction lines generalizing tb with
  | nil => exact ⟨rfl, h⟩
  | cons l ls ih =>
    obtain ⟨h1, h2⟩ := processLine_search tb l k h
    obtain ⟨h3, h4⟩ := ih (processLine tb l) h2
    refine ⟨?_, h4⟩
    rw [List.foldl_cons, h3, h1, List.map_cons, List.flatten_cons,
      List.foldl_append]

/-- A successful run of successive loads folds the per-file candidate
sequences for every key through dedup steps. -/
theorem loadAllFrom_search (files : List Str) (tb tbF : Table) (k : Str)
    (h : tableInv tb) (hl : loadAllFrom files tb = .ok tbF) :
    Search tbF k
        = ((files.map (fileCandsFor k)).flatten).foldl dedupStep (Search tb k)
    ∧ tableInv tbF := by
  induction files generalizing tb with
  | nil =>
    simp only [loadAllFrom, Except.ok.injEq] at hl
    subst hl
    exact ⟨rfl, h⟩
  | cons f fs ih =>
    simp only [loadAllFrom] at hl
    cases hd : dictAdd tb f with
    | error e => rw [hd] at hl; cases hl
    | ok tb2 =>
      rw [hd] at hl
      unfold dictAdd at hd
      cases hr : readLine f with
      | none => rw [hr] at hd; cases hd
      | some fr =>
        simp only [hr] at hd
        cases hw : wrapEncDecoder (encodingOf fr.1) with
        | error e => simp only [hw] at hd; cases hd
        | ok d =>
          simp only [hw, Except.ok.injEq] at hd
          obtain ⟨hA, hB⟩ := foldLines_search (completeLines fr.2) tb k h
          have hproc :
              (completeLines fr.2).foldl processLine tb = processLines tb fr.2 :=
            rfl
          rw [hproc] at hA hB
          rw [hd] at hA hB
          obtain ⟨h3, h4⟩ := ih tb2 hB hl
          refine ⟨?_, h4⟩
          have hfc : fileCandsFor k f
              = ((completeLines fr.2).map (lineCandsFor k)).flatten := by
            unfold fileCandsFor
            rw [hr]
          rw [h3, hA, List.map_cons, List.flatten_cons, List.foldl_append, hfc]

/-- Folding dedup steps keeps the texts pairwise distinct. -/
theorem foldDedup_nodup (cs acc : List Candidate)
    (h : (acc.map Candidate.text).Nodup) :
    ((cs.foldl dedupStep acc).map Candidate.text).Nodup := by
  induction cs generalizing acc with
  | nil => exact h
  | cons c cs ih =>
    rw [List.foldl_cons]
    apply ih
    unfold dedupStep
    by_cases hm : c.text ∈ acc.map Candidate.text
    · rwa [if_pos hm]
    · rw [if_neg hm, List.map_append]
      simp [List.nodup_append, h, hm]

/-- C2: after every successful sequence of loads, `Search k` is exactly
the prefix-dedup — by candidate text, first-seen occurrence kept, later
annotations discarded — of the concatenation, in load order, of the
per-file candidate sequences for `k`; in particular the returned texts
are pairwise distinct. -/
theorem c2_search_is_prefix_dedup (files : List Str) (k : Str) (tbF : Table)
    (h : loadAll files = .ok tbF) :
    Search tbF k = prefixDedup ((files.map (fileCandsFor k)).flatten)
    ∧ ((Search tbF k).map Candidate.text).Nodup := by
  have hinv : tableInv emptyTable := fun q e hq => by cases hq
  obtain ⟨h1, h2⟩ := loadAllFrom_search files emptyTable tbF k hinv h
  have hs : Search emptyTable k = [] := rfl
  rw [hs] at h1
  refine ⟨h1, ?_⟩
  rw [h1]
  exact foldDedup_nodup _ _ (by simp)

/-- Witness for C2: two concrete files with a duplicated text and a
conflicting annotation; the search result equals the spec-side
prefix-dedup of the concatenated per-file sequences. -/
theorem c2_witness :
    Search
        (match loadAll [("x\nk a/b;B/\n".toList), ("y\nk b;C/c/\n".toList)] with
          | .ok tb => tb
          | .error _ => emptyTable)
        ("k".toList)
      = prefixDedup
          (([("x\nk a/b;B/\n".toList), ("y\nk b;C/c/\n".toList)].map
            (fileCandsFor ("k".toList))).flatten) :=
  (c2_search_is_prefix_dedup
    [("x\nk a/b;B/\n".toList), ("y\nk b;C/c/\n".toList)] ("k".toList) _ rfl).1
